import Mathlib

/-!
Shallow embedding of the core organize/undo engine of src/file_organizer.py
(class SimpleFileOrganizer) and verification of the frozen claims.

Modelling conventions:
- A path relative to the target directory is a list of components; a file
  directly inside the target directory has a one-component path, a file in a
  category folder has a two-component path.
- The filesystem under the target directory is a DirState: the set of file
  paths, the set of direct subdirectory names, and the content of the sidecar
  undo-log file .file_organizer_undo.json (none when the file is absent).
- File metadata (size, mtime, content) is snapshotted in FileMeta.  Byte
  content is abstracted as a natural number; the MD5 digest of a file is its
  content when hashing succeeds and none when reading fails (hashOk).
- Machine timestamps are naturals (seconds).  The strftime year of the
  modification time is carried as a separate field.
- stat never fails in the model (so the Unknown Date / Unknown Size fallback
  branches of the source are present but unreachable here), and a move fails
  exactly when its source file is absent or the destination category folder
  does not exist; other per-file exceptions (permissions) are not modelled.
- Reading and writing the undo-log sidecar always succeeds in the model (the
  source only logs persistence errors), and the sort-key exception fallback
  of _sort_files is unreachable because key extraction cannot fail here.
- Python string operations are modelled on the underlying character lists.
-/

namespace FileOrganizer

/-- Paths relative to the target directory, one component per entry. -/
abbrev FPath := List String

/-- Python s.startswith(p). -/
def strStarts (s p : String) : Bool := p.data.isPrefixOf s.data

/-- Python s.endswith(p). -/
def strEnds (s p : String) : Bool := p.data.isSuffixOf s.data

/-- Python p in s, substring containment. -/
def strHasSub (s p : String) : Bool := s.data.tails.any (fun t => p.data.isPrefixOf t)

/-- Python s.lower(), for the ASCII names the heuristics look at. -/
def strLower (s : String) : String := ⟨s.data.map Char.toLower⟩

/-- Decimal rendering of a natural number, as Python str(n).  The first
argument is fuel, always called with fuel at least n; digits are produced
little-endian. -/
def decChars : Nat → Nat → List Char
  | 0, _ => []
  | fuel + 1, n => if n = 0 then [] else Nat.digitChar (n % 10) :: decChars fuel (n / 10)

/-- Python str(n) for a natural number n. -/
def decStr (n : Nat) : String := if n = 0 then "0" else ⟨(decChars n n).reverse⟩

/-- Index of the last dot of a character list, as Python str.rfind. -/
def rfindDot (l : List Char) : Option Nat :=
  ((List.range l.length).filter (fun i => l.getD i ' ' = '.')).getLast?

/-- Python pathlib suffix: the extension name[i:] where i is the index of the
last dot, provided 0 < i < len - 1, and the empty string otherwise. -/
def pySuffix (s : String) : String :=
  match rfindDot s.data with
  | some i => if 0 < i ∧ i + 1 < s.data.length then ⟨s.data.drop i⟩ else ""
  | none => ""

/-- Python pathlib stem: name[:i] under the same condition, else the name. -/
def pyStem (s : String) : String :=
  match rfindDot s.data with
  | some i => if 0 < i ∧ i + 1 < s.data.length then ⟨s.data.take i⟩ else s
  | none => s

/-- Snapshot of one regular file of the target directory at scan time. -/
structure FileMeta where
  name : String
  size : Nat
  mtime : Nat
  year : Nat
  content : Nat
  hashOk : Bool
deriving DecidableEq, Repr

/-- The organization_type argument of organize_files. -/
inductive OrgMode
  | type
  | date
  | size
  | extension
deriving DecidableEq, Repr

/-- A category table: name with its extension set, in iteration order. -/
abbrev CatTable := List (String × List String)

/-- The default_categories table of SimpleFileOrganizer.__init__. -/
def default_categories : CatTable :=
  [("Documents", [".pdf", ".doc", ".docx", ".txt", ".rtf", ".xls", ".xlsx", ".ppt", ".pptx", ".csv", ".odt", ".ods"]),
   ("Images", [".jpg", ".jpeg", ".png", ".gif", ".bmp", ".tiff", ".svg", ".webp", ".ico", ".raw", ".psd"]),
   ("Videos", [".mp4", ".avi", ".mkv", ".mov", ".wmv", ".flv", ".webm", ".mpg", ".mpeg", ".m4v", ".3gp"]),
   ("Audio", [".mp3", ".wav", ".flac", ".aac", ".ogg", ".wma", ".m4a", ".opus", ".aiff"]),
   ("Archives", [".zip", ".rar", ".7z", ".tar", ".gz", ".bz2", ".xz", ".cab", ".deb", ".rpm"]),
   ("Code", [".py", ".js", ".html", ".css", ".java", ".cpp", ".c", ".php", ".rb", ".go", ".rs", ".ts", ".jsx", ".vue"]),
   ("Executables", [".exe", ".msi", ".deb", ".rpm", ".dmg", ".pkg", ".app", ".run"]),
   ("Fonts", [".ttf", ".otf", ".woff", ".woff2", ".eot"]),
   ("Data", [".json", ".xml", ".yaml", ".yml", ".sql", ".db", ".sqlite"])]

/-- Extensions of the first suspicious pattern, script-like extensions. -/
def scriptExts : List String := ["bat", "cmd", "scr", "pif", "com", "vbs", "ws", "jar"]

/-- Regex 1 on the lowered name: any characters, then a dot and a script-like
extension at the end. -/
def pat_script (fn : String) : Bool := scriptExts.any (fun e => strEnds fn ("." ++ e))

/-- Regex 2 on the lowered name: a secondary extension appended after .exe or
.dll, that is the name has .exe. or .dll. as a substring. -/
def pat_double (fn : String) : Bool := strHasSub fn ".exe." || strHasSub fn ".dll."

/-- Lowercase hex digit test for the hex-name pattern. -/
def isHexChar (c : Char) : Bool := ('a' ≤ c && c ≤ 'f') || ('0' ≤ c && c ≤ '9')

/-- Regex 3 on the lowered name: the whole name is 8 or more hex characters. -/
def pat_hexname (fn : String) : Bool := 8 ≤ fn.data.length && fn.data.all isHexChar

/-- Extensions of the space-before-extension pattern. -/
def spacedExts : List String := ["exe", "bat", "cmd", "scr"]

/-- Regex 4 on the lowered name: one or more whitespace characters, then a dot
and an executable extension at the end; equivalently the name ends with the
dotted extension and the character right before that dot is whitespace. -/
def pat_space (fn : String) : Bool :=
  spacedExts.any (fun e =>
    (e.data.length + 2 ≤ fn.data.length) && strEnds fn ("." ++ e) &&
      (fn.data.getD (fn.data.length - e.data.length - 2) 'x').isWhitespace)

/-- Extensions of the system-names pattern. -/
def sysExts : List String := ["exe", "dll", "bat", "cmd"]

/-- Regex 5 on the lowered name, as re.match anchors it at the start: the name
starts with system32, or starts with windows, or starts with temp followed
somewhere later by a dot and one of exe, dll, bat, cmd. -/
def pat_sys (fn : String) : Bool :=
  strStarts fn "system32" || strStarts fn "windows" ||
    (strStarts fn "temp" && sysExts.any (fun e => strHasSub ⟨fn.data.drop 4⟩ ("." ++ e)))

/-- The suspicious_patterns loop of detect_suspicious_file: the lowered name
matches one of the five regexes. -/
def matches_suspicious_patterns (fn : String) : Bool :=
  pat_script fn || pat_double fn || pat_hexname fn || pat_space fn || pat_sys fn

/-- Extension set of the small-executable size check. -/
def smallExeExts : List String := [".exe", ".com", ".bat", ".cmd", ".scr"]

/-- Extension set of the hidden-executable check. -/
def hiddenExeExts : List String := [".exe", ".bat", ".cmd", ".sh"]

/-- detect_suspicious_file of SimpleFileOrganizer. -/
def detect_suspicious_file (m : FileMeta) : Bool :=
  let fn := strLower m.name
  matches_suspicious_patterns fn
  || (smallExeExts.contains (strLower (pySuffix m.name)) && m.size < 1024)
  || (strStarts fn "." && hiddenExeExts.contains (strLower (pySuffix m.name)))

/-- get_file_category of SimpleFileOrganizer.  The date comparisons mirror
mod_time at least now minus the timedelta; with natural-number seconds that is
now at most mtime plus the window. -/
def get_file_category (table : CatTable) (now : Nat) (m : FileMeta) (mode : OrgMode) : String :=
  match mode with
  | .type =>
    match table.find? (fun c => c.2.contains (strLower (pySuffix m.name))) with
    | some c => c.1
    | none => "Others"
  | .date =>
    if now ≤ m.mtime + 7 * 86400 then "This Week"
    else if now ≤ m.mtime + 30 * 86400 then "This Month"
    else if now ≤ m.mtime + 365 * 86400 then "This Year"
    else decStr m.year
  | .size =>
    if m.size < 1048576 then "Small (< 1MB)"
    else if m.size < 10485760 then "Medium (1-10MB)"
    else if m.size < 104857600 then "Large (10-100MB)"
    else "Very Large (> 100MB)"
  | .extension =>
    let ext := strLower (pySuffix m.name)
    if ext = "" then "No Extension" else ⟨ext.data.drop 1⟩

/-- calculate_file_hash: the MD5 digest, abstracted as the content value, or
none when reading the file fails. -/
def fileHash (m : FileMeta) : Option Nat := if m.hashOk then some m.content else none

/-- One step of the hash_to_files defaultdict of find_duplicates: append the
file to the group of its digest, keeping first-insertion key order. -/
def addToGroup (h : Nat) (m : FileMeta) : List (Nat × List FileMeta) → List (Nat × List FileMeta)
  | [] => [(h, [m])]
  | g :: gs => if g.1 = h then (g.1, g.2 ++ [m]) :: gs else g :: addToGroup h m gs

/-- The scanning loop of find_duplicates over the file list, building the
digest groups; files whose hashing fails are skipped. -/
def hashGroupsAux (gs : List (Nat × List FileMeta)) : List FileMeta → List (Nat × List FileMeta)
  | [] => gs
  | m :: ms =>
    hashGroupsAux (match fileHash m with | some h => addToGroup h m gs | none => gs) ms

/-- Digest groups of a scan list, in first-occurrence key order. -/
def hashGroups (ms : List FileMeta) : List (Nat × List FileMeta) := hashGroupsAux [] ms

/-- find_duplicates of SimpleFileOrganizer: within every group of more than
one file, every file beyond the first is a duplicate. -/
def find_duplicates (ms : List FileMeta) : List FileMeta :=
  ((hashGroups ms).map (fun g => if 1 < g.2.length then g.2.tail else [])).flatten

/-- Lexicographic comparison of character lists by code point, as Python
compares strings. -/
def lexLe : List Char → List Char → Bool
  | [], _ => true
  | _ :: _, [] => false
  | a :: as, b :: bs =>
    if a.toNat < b.toNat then true
    else if b.toNat < a.toNat then false
    else lexLe as bs

/-- Python string less-or-equal. -/
def strLe (s t : String) : Bool := lexLe s.data t.data

/-- Sort key comparison of _sort_files: date compares mtime, size compares
size, anything else (including name) compares the lowered name. -/
def sortKeyLE (sort_by : String) (a b : FileMeta) : Bool :=
  if sort_by = "date" then decide (a.mtime ≤ b.mtime)
  else if sort_by = "size" then decide (a.size ≤ b.size)
  else strLe (strLower a.name) (strLower b.name)

/-- Insertion of one file into an already sorted list, placing it before the
first element it compares at most equal to, so that of two files with equal
keys the earlier one stays first. -/
def insertSorted (le : FileMeta → FileMeta → Bool) (m : FileMeta) : List FileMeta → List FileMeta
  | [] => [m]
  | x :: xs => if le m x then m :: x :: xs else x :: insertSorted le m xs

/-- A stable ascending sort by the given comparison. -/
def insertionSort (le : FileMeta → FileMeta → Bool) : List FileMeta → List FileMeta
  | [] => []
  | x :: xs => insertSorted le x (insertionSort le xs)

/-- _sort_files of SimpleFileOrganizer: a stable sort by the requested key,
descending when sort_order is desc (Python sorted with reverse=True keeps the
original order of equal keys, matched here by flipping the comparison). -/
def sort_files (sort_by sort_order : String) (files : List FileMeta) : List FileMeta :=
  if sort_order = "desc" then insertionSort (fun a b => sortKeyLE sort_by b a) files
  else insertionSort (fun a b => sortKeyLE sort_by a b) files

/-- One record of the moves list of the undo-log sidecar. -/
structure MoveRec where
  original_path : FPath
  new_path : FPath
  filename : String
  category : String
  suspicious : Bool
  duplicate : Bool
deriving DecidableEq, Repr

/-- The self.stats counters of one organize invocation. -/
structure SessionStats where
  moved : Nat
  errors : Nat
  suspicious : Nat
  duplicates : Nat
  space_saved : Nat
deriving DecidableEq, Repr

/-- The reset stats dictionary. -/
def initStats : SessionStats := ⟨0, 0, 0, 0, 0⟩

/-- State of the target directory: regular-file paths, direct subdirectory
names, and the undo-log sidecar content (none when the file is absent). -/
structure DirState where
  files : Finset FPath
  folders : Finset String
  undoLog : Option (List MoveRec)
deriving DecidableEq

/-- Name of the undo-log sidecar file inside the target directory. -/
def undoFileName : String := ".file_organizer_undo.json"

/-- create_folders of SimpleFileOrganizer: the category folders guaranteed for
an organization type (extension folders are created lazily per file). -/
def create_folders (table : CatTable) (mode : OrgMode) : Finset String :=
  match mode with
  | .type => (table.map Prod.fst).toFinset ∪ {"Others", "Suspicious"}
  | .date => {"This Week", "This Month", "This Year", "Older", "Unknown Date", "Suspicious"}
  | .size => {"Small (< 1MB)", "Medium (1-10MB)", "Large (10-100MB)", "Very Large (> 100MB)", "Unknown Size", "Suspicious"}
  | .extension => {"Suspicious"}

/-- Path of a file directly in the target directory. -/
def rootPath (n : String) : FPath := [n]

/-- Path of a file inside a category folder. -/
def destOf (cat nm : String) : FPath := [cat, nm]

/-- Candidate destination names of the collision loop: the plain name first,
then stem_1suffix, stem_2suffix, and so on. -/
def candName (nm : String) : Nat → String
  | 0 => nm
  | k + 1 => pyStem nm ++ "_" ++ decStr (k + 1) ++ pySuffix nm

/-- The while destination.exists() loop: starting from candidate k, return the
first candidate whose destination path is not taken.  The first argument is
fuel, a termination device; resolveName supplies enough fuel for the search to
always end at a free candidate (see searchFree_not_mem). -/
def searchFree (taken : Finset FPath) (cat nm : String) : Nat → Nat → String
  | 0, k => candName nm k
  | fuel + 1, k =>
    if destOf cat (candName nm k) ∈ taken then searchFree taken cat nm fuel (k + 1)
    else candName nm k

/-- Destination-name collision resolution of organize_files. -/
def resolveName (taken : Finset FPath) (cat nm : String) : String :=
  searchFree taken cat nm (taken.card + 1) 0

/-- Internal state of the per-file loop of organize_files. -/
structure LoopState where
  files : Finset FPath
  folders : Finset String
  log : List MoveRec
  stats : SessionStats
deriving DecidableEq

/-- The body of the per-file loop of organize_files, for one file: flagging,
category selection, dynamic extension folders, collision resolution and the
move (or, in a dry run, preview only).  A move fails exactly when its source
is gone or the destination category folder is missing, incrementing errors. -/
def processFile (table : CatTable) (now : Nat) (mode : OrgMode) (dryRun : Bool)
    (dupNames : List String) (acc : LoopState) (m : FileMeta) : LoopState :=
  let is_duplicate := dupNames.contains m.name
  let is_suspicious := detect_suspicious_file m
  let category :=
    if is_suspicious then "Suspicious"
    else if is_duplicate then "Duplicates"
    else get_file_category table now m mode
  let stats1 :=
    if is_suspicious then { acc.stats with suspicious := acc.stats.suspicious + 1 }
    else acc.stats
  let folders1 :=
    if mode == OrgMode.extension && !is_suspicious && !is_duplicate && !dryRun then
      insert category acc.folders
    else acc.folders
  if dryRun then { acc with stats := stats1, folders := folders1 }
  else
    let nm := resolveName acc.files category m.name
    let dest := destOf category nm
    if rootPath m.name ∈ acc.files ∧ category ∈ folders1 then
      { files := insert dest (acc.files.erase (rootPath m.name)),
        folders := folders1,
        log := acc.log ++ [⟨rootPath m.name, dest, m.name, category, is_suspicious, is_duplicate⟩],
        stats := { stats1 with moved := stats1.moved + 1 } }
    else
      { files := acc.files, folders := folders1, log := acc.log,
        stats := { stats1 with errors := stats1.errors + 1 } }

/-- Result of one organize_files invocation: the directory state, the session
stats, the in-memory undo_data list at the end of the pass (every caller of
the source constructs a fresh SimpleFileOrganizer per pass, so the list starts
empty), and the boolean return value. -/
structure OrganizeResult where
  state : DirState
  stats : SessionStats
  log : List MoveRec
  ok : Bool
deriving DecidableEq

/-- Stats after the reset and the duplicate scan of organize_files:
find_duplicates records the duplicate count and, when any duplicates exist,
adds their total size to space_saved; the organize loop then adds the same
total a second time. -/
def orgStats1 (findDups : Bool) (dups : List FileMeta) : SessionStats :=
  if findDups then
    { initStats with
        duplicates := dups.length,
        space_saved :=
          (if dups.isEmpty then 0 else dups.foldl (fun a m => a + m.size) 0) +
            dups.foldl (fun a m => a + m.size) 0 }
  else initStats

/-- Folders after the folder-creation step of organize_files: none created in
a dry run, otherwise the fixed category folders of the mode plus Duplicates
when any duplicates were found. -/
def orgFolders1 (table : CatTable) (mode : OrgMode) (dryRun : Bool)
    (dups : List FileMeta) (folders : Finset String) : Finset String :=
  if dryRun then folders
  else (folders ∪ create_folders table mode) ∪ (if dups.isEmpty then ∅ else {"Duplicates"})

/-- organize_files of SimpleFileOrganizer.  The scan argument is the iterdir
listing of the regular files directly in the target directory, in directory
order; the dot-file filter, duplicate detection (over the unsorted listing),
sorting, folder creation, the per-file loop and the final undo-log save follow
the source.  The existence check of the target directory is modelled as always
passing since DirState is the directory. -/
def organize_files (table : CatTable) (now : Nat) (dryRun : Bool)
    (sort_by sort_order : String) (mode : OrgMode) (findDups : Bool)
    (scan : List FileMeta) (s : DirState) : OrganizeResult :=
  let files := scan.filter (fun m => !(strStarts m.name "."))
  if files.isEmpty then { state := s, stats := initStats, log := [], ok := true }
  else
    let dups := if findDups then find_duplicates files else []
    let sorted := sort_files sort_by sort_order files
    let final := sorted.foldl (processFile table now mode dryRun (dups.map (fun m => m.name)))
      { files := s.files, folders := orgFolders1 table mode dryRun dups s.folders,
        log := [], stats := orgStats1 findDups dups }
    let newLog := if !dryRun && final.stats.moved != 0 then some final.log else s.undoLog
    { state := { files := final.files, folders := final.folders, undoLog := newLog },
      stats := final.stats, log := final.log, ok := true }

/-- Accumulator of the undo loop: the files, the restored count, the two
skip-with-warning counts, and the error count (only raised exceptions count as
errors in the source; those are not modelled, so it stays zero). -/
structure UndoAcc where
  files : Finset FPath
  restored : Nat
  skippedMissing : Nat
  skippedOccupied : Nat
  errors : Nat
deriving DecidableEq

/-- The body of the undo loop for one logged entry, in log order: skip with a
warning when the file is no longer at its new path, skip with a warning when
the original path is occupied, otherwise move it back. -/
def undoStep (dryRun : Bool) (acc : UndoAcc) (e : MoveRec) : UndoAcc :=
  if dryRun then acc
  else if e.new_path ∉ acc.files then
    { acc with skippedMissing := acc.skippedMissing + 1 }
  else if e.original_path ∈ acc.files then
    { acc with skippedOccupied := acc.skippedOccupied + 1 }
  else
    { acc with files := insert e.original_path (acc.files.erase e.new_path),
               restored := acc.restored + 1 }

/-- Result of one undo_organization invocation. -/
structure UndoResult where
  state : DirState
  restored : Nat
  errors : Nat
  ok : Bool
deriving DecidableEq

/-- undo_organization of SimpleFileOrganizer: load the sidecar log (absent or
empty means nothing to undo), process the entries in log order, and clear the
sidecar when at least one entry was restored in a real run. -/
def undo_organization (dryRun : Bool) (s : DirState) : UndoResult :=
  match s.undoLog with
  | none => { state := s, restored := 0, errors := 0, ok := false }
  | some log =>
    if log.isEmpty then { state := s, restored := 0, errors := 0, ok := false }
    else
      let fin := log.foldl (undoStep dryRun) ⟨s.files, 0, 0, 0, 0⟩
      let newLog := if !dryRun && fin.restored != 0 then none else s.undoLog
      { state := { files := fin.files, folders := s.folders, undoLog := newLog },
        restored := fin.restored, errors := fin.errors, ok := true }

/-! Basic facts about the decimal rendering, the stem and suffix split, and
the collision-resolution search. -/

/-- Value of a decimal digit character. -/
def charVal (c : Char) : Nat := c.toNat - 48

/-- Little-endian value of a digit-character list. -/
def ofChars : List Char → Nat
  | [] => 0
  | c :: cs => charVal c + 10 * ofChars cs

theorem charVal_digitChar : ∀ d < 10, charVal (Nat.digitChar d) = d := by decide

theorem decChars_val : ∀ fuel n, n ≤ fuel → ofChars (decChars fuel n) = n := by
  intro fuel
  induction fuel with
  | zero =>
    intro n hn
    interval_cases n
    simp [decChars, ofChars]
  | succ f ih =>
    intro n hn
    by_cases h0 : n = 0
    · simp [decChars, h0, ofChars]
    · have hmod : n % 10 < 10 := Nat.mod_lt _ (by norm_num)
      have hdiv : n / 10 ≤ f := by
        have : n / 10 < n := Nat.div_lt_self (Nat.pos_of_ne_zero h0) (by norm_num)
        omega
      simp only [decChars, h0, if_false, ofChars]
      rw [charVal_digitChar _ hmod, ih _ hdiv]
      omega

theorem decStr_injective : Function.Injective decStr := by
  intro a b hab
  by_cases ha : a = 0 <;> by_cases hb : b = 0
  · omega
  · exfalso
    have hd : (decStr a).data = (decStr b).data := by rw [hab]
    simp only [decStr, ha, hb, if_true, if_false] at hd
    have : decChars b b = ['0'] := by
      have := congrArg List.reverse hd
      simpa using this.symm
    have hb0 : ofChars (decChars b b) = b := decChars_val b b le_rfl
    rw [this] at hb0
    simp [ofChars, charVal] at hb0
    exact hb hb0.symm
  · exfalso
    have hd : (decStr a).data = (decStr b).data := by rw [hab]
    simp only [decStr, ha, hb, if_true, if_false] at hd
    have : decChars a a = ['0'] := by
      have := congrArg List.reverse hd
      simpa using this
    have ha0 : ofChars (decChars a a) = a := decChars_val a a le_rfl
    rw [this] at ha0
    simp [ofChars, charVal] at ha0
    exact ha ha0.symm
  · have hd : (decStr a).data = (decStr b).data := by rw [hab]
    simp only [decStr, ha, hb, if_false] at hd
    have h1 : decChars a a = decChars b b := by
      have := congrArg List.reverse hd
      simpa using this
    have := decChars_val a a le_rfl
    rw [h1, decChars_val b b le_rfl] at this
    exact this.symm

theorem pyStem_append_pySuffix (s : String) : pyStem s ++ pySuffix s = s := by
  rw [String.ext_iff]
  unfold pyStem pySuffix
  cases h : rfindDot s.data with
  | none => simp [String.data_append]
  | some i =>
    dsimp only
    by_cases hc : 0 < i ∧ i + 1 < s.data.length
    · rw [if_pos hc, if_pos hc]
      rw [String.data_append]
      exact List.take_append_drop i s.data
    · rw [if_neg hc, if_neg hc]
      simp [String.data_append]

theorem candName_zero_data (nm : String) :
    (candName nm 0).data = (pyStem nm).data ++ (pySuffix nm).data := by
  have h := pyStem_append_pySuffix nm
  rw [String.ext_iff, String.data_append] at h
  simpa [candName] using h.symm

theorem candName_succ_data (nm : String) (k : Nat) :
    (candName nm (k + 1)).data =
      (((pyStem nm).data ++ ['_']) ++ (decStr (k + 1)).data) ++ (pySuffix nm).data := by
  show (pyStem nm ++ "_" ++ decStr (k + 1) ++ pySuffix nm).data = _
  rw [String.data_append, String.data_append, String.data_append]

theorem candName_injective (nm : String) : Function.Injective (candName nm) := by
  intro a b hab
  have hd : (candName nm a).data = (candName nm b).data := by rw [hab]
  match a, b with
  | 0, 0 => rfl
  | 0, b + 1 =>
    exfalso
    rw [candName_zero_data, candName_succ_data] at hd
    have := congrArg List.length hd
    simp at this
    omega
  | a + 1, 0 =>
    exfalso
    rw [candName_zero_data, candName_succ_data] at hd
    have := congrArg List.length hd
    simp at this
    omega
  | a + 1, b + 1 =>
    rw [candName_succ_data, candName_succ_data] at hd
    have h1 : (decStr (a + 1)).data = (decStr (b + 1)).data :=
      List.append_cancel_left (List.append_cancel_right hd)
    have h2 : decStr (a + 1) = decStr (b + 1) := String.ext_iff.mpr h1
    exact decStr_injective h2

theorem destOf_candName_injective (cat nm : String) :
    Function.Injective (fun j => destOf cat (candName nm j)) := by
  intro a b hab
  simp only [destOf, List.cons.injEq, and_true, true_and] at hab
  exact candName_injective nm hab

theorem exists_free_cand (taken : Finset FPath) (cat nm : String) :
    ∃ j, j ≤ taken.card ∧ destOf cat (candName nm j) ∉ taken := by
  by_contra hcon
  push_neg at hcon
  have hmaps : ∀ j ∈ Finset.range (taken.card + 1), destOf cat (candName nm j) ∈ taken := by
    intro j hj
    exact hcon j (by simpa [Nat.lt_succ_iff] using hj)
  have hinj : Set.InjOn (fun j => destOf cat (candName nm j)) ↑(Finset.range (taken.card + 1)) :=
    fun a _ b _ hab => destOf_candName_injective cat nm hab
  have := Finset.card_le_card_of_injOn (fun j => destOf cat (candName nm j)) hmaps hinj
  simp [Finset.card_range] at this

theorem searchFree_not_mem (taken : Finset FPath) (cat nm : String) :
    ∀ fuel k, (∃ j, j ≤ fuel ∧ destOf cat (candName nm (k + j)) ∉ taken) →
      destOf cat (searchFree taken cat nm fuel k) ∉ taken := by
  intro fuel
  induction fuel with
  | zero =>
    intro k ⟨j, hj, hfree⟩
    interval_cases j
    simpa [searchFree] using hfree
  | succ f ih =>
    intro k ⟨j, hj, hfree⟩
    unfold searchFree
    by_cases hmem : destOf cat (candName nm k) ∈ taken
    · rw [if_pos hmem]
      apply ih
      have hj0 : j ≠ 0 := by
        intro h0
        rw [h0] at hfree
        simp at hfree
        exact hfree hmem
      exact ⟨j - 1, by omega, by
        have : k + 1 + (j - 1) = k + j := by omega
        rw [this]
        exact hfree⟩
    · rw [if_neg hmem]
      exact hmem

theorem resolveName_not_mem (taken : Finset FPath) (cat nm : String) :
    destOf cat (resolveName taken cat nm) ∉ taken := by
  unfold resolveName
  apply searchFree_not_mem
  obtain ⟨j, hj, hfree⟩ := exists_free_cand taken cat nm
  exact ⟨j, by omega, by simpa using hfree⟩

/-! Permutation facts about the sorting step. -/

theorem insertSorted_perm (le : FileMeta → FileMeta → Bool) (m : FileMeta) :
    ∀ l : List FileMeta, (insertSorted le m l).Perm (m :: l) := by
  intro l
  induction l with
  | nil => simp [insertSorted]
  | cons x xs ih =>
    unfold insertSorted
    by_cases h : le m x = true
    · rw [if_pos h]
    · rw [if_neg h]
      exact (List.Perm.cons x ih).trans (List.Perm.swap m x xs)

theorem insertionSort_perm (le : FileMeta → FileMeta → Bool) :
    ∀ l : List FileMeta, (insertionSort le l).Perm l := by
  intro l
  induction l with
  | nil => simp [insertionSort]
  | cons x xs ih =>
    unfold insertionSort
    exact (insertSorted_perm le x (insertionSort le xs)).trans (List.Perm.cons x ih)

theorem sort_files_perm (sort_by sort_order : String) (l : List FileMeta) :
    (sort_files sort_by sort_order l).Perm l := by
  unfold sort_files
  by_cases h : sort_order = "desc"
  · rw [if_pos h]
    exact insertionSort_perm _ l
  · rw [if_neg h]
    exact insertionSort_perm _ l

/-! Facts about the duplicate grouping. -/

/-- The group stored for a key: contents of the first entry with that key. -/
def groupFor : List (Nat × List FileMeta) → Nat → List FileMeta
  | [], _ => []
  | g :: gs, h => if g.1 = h then g.2 else groupFor gs h

theorem groupFor_addToGroup (h : Nat) (m : FileMeta) :
    ∀ (gs : List (Nat × List FileMeta)) (h2 : Nat),
      groupFor (addToGroup h m gs) h2 =
        if h2 = h then groupFor gs h ++ [m] else groupFor gs h2 := by
  intro gs
  induction gs with
  | nil =>
    intro h2
    simp only [addToGroup, groupFor]
    by_cases he : h2 = h
    · subst he
      simp
    · rw [if_neg (fun hx : h = h2 => he hx.symm), if_neg he]
  | cons g rest ih =>
    intro h2
    unfold addToGroup
    by_cases hg : g.1 = h
    · rw [if_pos hg]
      by_cases he : h2 = h
      · subst he
        simp [groupFor, hg]
      · have hgne : g.1 ≠ h2 := fun hx => he (hx.symm.trans hg)
        simp [groupFor, hgne, he]
    · rw [if_neg hg]
      by_cases hgh2 : g.1 = h2
      · have hne : h2 ≠ h := fun he => hg (hgh2.trans he)
        simp [groupFor, hgh2, hne]
      · simp [groupFor, hgh2, hg, ih h2]

theorem groupFor_hashGroupsAux :
    ∀ (ms : List FileMeta) (gs : List (Nat × List FileMeta)) (h : Nat),
      groupFor (hashGroupsAux gs ms) h =
        groupFor gs h ++ ms.filter (fun m => fileHash m == some h) := by
  intro ms
  induction ms with
  | nil =>
    intro gs h
    simp [hashGroupsAux]
  | cons m ms ih =>
    intro gs h
    unfold hashGroupsAux
    cases hh : fileHash m with
    | none =>
      rw [ih]
      congr 1
      rw [List.filter_cons]
      simp [hh]
    | some h0 =>
      rw [ih, groupFor_addToGroup]
      by_cases he : h = h0
      · subst he
        rw [if_pos rfl, List.filter_cons]
        simp [hh]
      · rw [if_neg he, List.filter_cons]
        have : ¬ ((fileHash m == some h) = true) := by
          simp [hh]
          exact fun hx => he hx.symm
        simp [this]

theorem mem_keys_addToGroup (h : Nat) (m : FileMeta) :
    ∀ (gs : List (Nat × List FileMeta)) (k : Nat),
      k ∈ (addToGroup h m gs).map Prod.fst → k ∈ gs.map Prod.fst ∨ k = h := by
  intro gs
  induction gs with
  | nil =>
    intro k hk
    simp [addToGroup] at hk
    exact Or.inr hk
  | cons g rest ih =>
    intro k hk
    unfold addToGroup at hk
    by_cases hg : g.1 = h
    · rw [if_pos hg] at hk
      rw [List.map_cons, List.mem_cons] at hk
      exact Or.inl (by rw [List.map_cons, List.mem_cons]; exact hk)
    · rw [if_neg hg] at hk
      rw [List.map_cons, List.mem_cons] at hk
      rcases hk with hk | hk
      · exact Or.inl (by rw [List.map_cons, List.mem_cons]; exact Or.inl hk)
      · rcases ih k hk with hx | hx
        · exact Or.inl (by rw [List.map_cons, List.mem_cons]; exact Or.inr hx)
        · exact Or.inr hx

theorem keys_nodup_addToGroup (h : Nat) (m : FileMeta) :
    ∀ gs : List (Nat × List FileMeta),
      (gs.map Prod.fst).Nodup → ((addToGroup h m gs).map Prod.fst).Nodup := by
  intro gs
  induction gs with
  | nil =>
    intro _
    simp [addToGroup]
  | cons g rest ih =>
    intro hnd
    simp only [List.map_cons, List.nodup_cons] at hnd
    unfold addToGroup
    by_cases hg : g.1 = h
    · rw [if_pos hg]
      simp only [List.map_cons, List.nodup_cons]
      exact hnd
    · rw [if_neg hg]
      simp only [List.map_cons, List.nodup_cons]
      constructor
      · intro hmem
        rcases mem_keys_addToGroup h m rest g.1 hmem with hx | hx
        · exact hnd.1 hx
        · exact hg hx
      · exact ih hnd.2

theorem keys_nodup_hashGroupsAux :
    ∀ (ms : List FileMeta) (gs : List (Nat × List FileMeta)),
      (gs.map Prod.fst).Nodup → ((hashGroupsAux gs ms).map Prod.fst).Nodup := by
  intro ms
  induction ms with
  | nil =>
    intro gs hnd
    simpa [hashGroupsAux] using hnd
  | cons m ms ih =>
    intro gs hnd
    unfold hashGroupsAux
    cases hh : fileHash m with
    | none => exact ih gs hnd
    | some h0 => exact ih _ (keys_nodup_addToGroup h0 m gs hnd)

theorem hashGroups_keys_nodup (ms : List FileMeta) :
    ((hashGroups ms).map Prod.fst).Nodup :=
  keys_nodup_hashGroupsAux ms [] (by simp)

theorem groupFor_of_mem :
    ∀ (gs : List (Nat × List FileMeta)) (g : Nat × List FileMeta),
      (gs.map Prod.fst).Nodup → g ∈ gs → groupFor gs g.1 = g.2 := by
  intro gs
  induction gs with
  | nil =>
    intro g _ hg
    simp at hg
  | cons g0 rest ih =>
    intro g hnd hg
    simp only [List.map_cons, List.nodup_cons] at hnd
    rcases List.mem_cons.mp hg with hx | hx
    · subst hx
      simp [groupFor]
    · have hne : g0.1 ≠ g.1 := by
        intro he
        exact hnd.1 (he ▸ List.mem_map_of_mem Prod.fst hx)
      simp only [groupFor, if_neg hne]
      exact ih g hnd.2 hx

theorem groupFor_eq_nil :
    ∀ (gs : List (Nat × List FileMeta)) (h : Nat),
      h ∉ gs.map Prod.fst → groupFor gs h = [] := by
  intro gs
  induction gs with
  | nil => intro h _; rfl
  | cons g rest ih =>
    intro h hmem
    simp only [List.map_cons, List.mem_cons] at hmem
    push_neg at hmem
    simp only [groupFor, if_neg (fun hx : g.1 = h => hmem.1 hx.symm)]
    exact ih h hmem.2

theorem hashGroups_group_eq (ms : List FileMeta) :
    ∀ g ∈ hashGroups ms, g.2 = ms.filter (fun m => fileHash m == some g.1) := by
  intro g hg
  have h1 : groupFor (hashGroups ms) g.1 = g.2 :=
    groupFor_of_mem (hashGroups ms) g (hashGroups_keys_nodup ms) hg
  have h2 := groupFor_hashGroupsAux ms [] g.1
  unfold hashGroups at h1
  rw [h1] at h2
  simpa [groupFor] using h2

theorem hashGroups_filter_of_not_mem (ms : List FileMeta) (c : Nat)
    (hc : c ∉ (hashGroups ms).map Prod.fst) :
    ms.filter (fun m => fileHash m == some c) = [] := by
  have h2 := groupFor_hashGroupsAux ms [] c
  unfold hashGroups at hc
  rw [groupFor_eq_nil _ _ hc] at h2
  simpa [groupFor] using h2.symm

theorem flatten_single (f : Nat × List FileMeta → List FileMeta) (c : Nat) (T : List FileMeta) :
    ∀ gs : List (Nat × List FileMeta),
      (gs.map Prod.fst).Nodup →
      (∀ g ∈ gs, g.1 ≠ c → f g = []) →
      (∀ g ∈ gs, g.1 = c → f g = T) →
      (gs.map f).flatten = if c ∈ gs.map Prod.fst then T else [] := by
  intro gs
  induction gs with
  | nil => intro _ _ _; simp
  | cons g rest ih =>
    intro hnd hother hsame
    simp only [List.map_cons, List.flatten_cons, List.nodup_cons] at hnd ⊢
    by_cases hg : g.1 = c
    · rw [hsame g (by simp) hg]
      have hrest : c ∉ rest.map Prod.fst := by
        intro hmem
        exact hnd.1 (hg ▸ hmem)
      have hz : (rest.map f).flatten = [] := by
        rw [ih hnd.2 (fun g2 hg2 => hother g2 (by simp [hg2])) (fun g2 hg2 => hsame g2 (by simp [hg2]))]
        rw [if_neg hrest]
      rw [hz, List.append_nil, if_pos (by simp [hg])]
    · rw [hother g (by simp) hg, List.nil_append]
      rw [ih hnd.2 (fun g2 hg2 => hother g2 (by simp [hg2])) (fun g2 hg2 => hsame g2 (by simp [hg2]))]
      by_cases hmem : c ∈ rest.map Prod.fst
      · rw [if_pos hmem, if_pos (by simp [hmem])]
      · have hnotc : c ∉ g.1 :: rest.map Prod.fst := by
          rw [List.mem_cons]
          push_neg
          exact ⟨fun hx => hg hx.symm, hmem⟩
        rw [if_neg hmem, if_neg hnotc]

theorem filter_short_of_pairwise (ms : List FileMeta) (c : Nat)
    (hp : ms.Pairwise fun a b => fileHash a = fileHash b → fileHash a = none ∨ fileHash a = some c)
    (h : Nat) (hne : h ≠ c) :
    (ms.filter (fun m => fileHash m == some h)).length ≤ 1 := by
  have hpf := hp.filter (fun m => fileHash m == some h)
  cases hml : ms.filter (fun m => fileHash m == some h) with
  | nil => simp
  | cons x tl =>
    cases tl with
    | nil => simp
    | cons y tl2 =>
      exfalso
      rw [hml] at hpf
      have hR := (List.pairwise_cons.mp hpf).1 y (by simp)
      have hxm : x ∈ ms.filter (fun m => fileHash m == some h) := by rw [hml]; simp
      have hym : y ∈ ms.filter (fun m => fileHash m == some h) := by rw [hml]; simp
      have hx : fileHash x = some h := by simpa using List.of_mem_filter hxm
      have hy : fileHash y = some h := by simpa using List.of_mem_filter hym
      rcases hR (hx.trans hy.symm) with hz | hz
      · rw [hx] at hz
        exact Option.noConfusion hz
      · rw [hx] at hz
        exact hne (Option.some.injEq _ _ ▸ hz)

/-- C9: Duplicate grouping: for every scanned file list in which any two files
with the same successful digest share the single colliding content c (so
exactly the files of content c collide), find_duplicates returns exactly the
members of the c-group beyond the first in scan order — so K sharing files
yield K minus 1 duplicates — and a file whose hashing fails is never marked
duplicate, without the batch failing. -/
theorem find_duplicates_grouping (ms : List FileMeta) (c : Nat)
    (hp : ms.Pairwise fun a b => fileHash a = fileHash b → fileHash a = none ∨ fileHash a = some c) :
    find_duplicates ms = (ms.filter (fun m => fileHash m == some c)).tail ∧
    (find_duplicates ms).length = (ms.filter (fun m => fileHash m == some c)).length - 1 ∧
    (∀ m, fileHash m = none → m ∉ find_duplicates ms) := by
  have hmain : find_duplicates ms = (ms.filter (fun m => fileHash m == some c)).tail := by
    unfold find_duplicates
    have hother : ∀ g ∈ hashGroups ms, g.1 ≠ c →
        (if 1 < g.2.length then g.2.tail else []) = [] := by
      intro g hg hne
      have hgeq := hashGroups_group_eq ms g hg
      have hshort := filter_short_of_pairwise ms c hp g.1 hne
      rw [← hgeq] at hshort
      rw [if_neg (by omega)]
    have hsame : ∀ g ∈ hashGroups ms, g.1 = c →
        (if 1 < g.2.length then g.2.tail else []) =
          (ms.filter (fun m => fileHash m == some c)).tail := by
      intro g hg hceq
      have hgeq := hashGroups_group_eq ms g hg
      rw [hceq] at hgeq
      rw [← hgeq]
      by_cases hlong : 1 < g.2.length
      · rw [if_pos hlong]
      · rw [if_neg hlong]
        match g2eq : g.2, hlong with
        | [], _ => rfl
        | [x], _ => rfl
        | x :: y :: tl, hlong => exact absurd (by simp) hlong
    rw [flatten_single _ c _ (hashGroups ms) (hashGroups_keys_nodup ms) hother hsame]
    by_cases hmem : c ∈ (hashGroups ms).map Prod.fst
    · rw [if_pos hmem]
    · rw [if_neg hmem, hashGroups_filter_of_not_mem ms c hmem]
      rfl
  refine ⟨hmain, ?_, ?_⟩
  · rw [hmain, List.length_tail]
  · intro m hm hmem
    rw [hmain] at hmem
    have h1 := List.of_mem_filter (List.mem_of_mem_tail hmem)
    rw [hm] at h1
    simp at h1

/-- Witness for C9: four files of which the first two share content 7, one
has distinct content 9, and one cannot be hashed; exactly the second file is
marked duplicate and the unhashable file is excluded. -/
theorem find_duplicates_grouping_witness :
    ([⟨"a.txt", 5, 0, 2024, 7, true⟩, ⟨"b.txt", 5, 0, 2024, 7, true⟩,
      ⟨"c.txt", 5, 0, 2024, 9, false⟩, ⟨"d.txt", 5, 0, 2024, 9, true⟩] : List FileMeta).Pairwise
      (fun a b => fileHash a = fileHash b → fileHash a = none ∨ fileHash a = some 7) ∧
    find_duplicates [⟨"a.txt", 5, 0, 2024, 7, true⟩, ⟨"b.txt", 5, 0, 2024, 7, true⟩,
      ⟨"c.txt", 5, 0, 2024, 9, false⟩, ⟨"d.txt", 5, 0, 2024, 9, true⟩] =
      [⟨"b.txt", 5, 0, 2024, 7, true⟩] :=
  ⟨by decide, by
    have h := find_duplicates_grouping
      [⟨"a.txt", 5, 0, 2024, 7, true⟩, ⟨"b.txt", 5, 0, 2024, 7, true⟩,
       ⟨"c.txt", 5, 0, 2024, 9, false⟩, ⟨"d.txt", 5, 0, 2024, 9, true⟩] 7 (by decide)
    rw [h.1]
    decide⟩

/-! Claim C8: the suspicion detector contract. -/

/-- System-names clause exactly as claim C8 words it: the name containing
system32, windows or temp, combined with an executable extension. -/
def claimSysClause (fn : String) : Bool :=
  (strHasSub fn "system32" || strHasSub fn "windows" || strHasSub fn "temp") &&
    sysExts.any (fun e => strHasSub fn ("." ++ e))

/-- The suspicion predicate exactly as claim C8 states it, clause by clause. -/
def claimSuspicious (m : FileMeta) : Bool :=
  let fn := strLower m.name
  (pat_script fn || pat_double fn || pat_hexname fn || pat_space fn || claimSysClause fn)
  || (smallExeExts.contains (strLower (pySuffix m.name)) && m.size < 1024)
  || (strStarts fn "." && hiddenExeExts.contains (strLower (pySuffix m.name)))

/-- C8 counterexample: the file windowsphoto.jpg (5000 bytes) is flagged by
the source detector, because re.match anchors the fifth pattern at the start
of the name and the alternatives system32 and windows carry no extension
requirement, while the claim as stated requires an executable extension
combined with the keyword, so its predicate is false here. -/
theorem detect_suspicious_claim_counterexample :
    detect_suspicious_file ⟨"windowsphoto.jpg", 5000, 0, 2024, 1, true⟩ = true ∧
    claimSuspicious ⟨"windowsphoto.jpg", 5000, 0, 2024, 1, true⟩ = false := by decide

/-- System-names clause as the code actually behaves and as C8 must be
amended: the name starts with system32, or starts with windows, or starts
with temp followed later by a dot and one of exe, dll, bat, cmd. -/
def amendedSysClause (fn : String) : Bool :=
  strStarts fn "system32" || strStarts fn "windows" ||
    (strStarts fn "temp" && sysExts.any (fun e => strHasSub ⟨fn.data.drop 4⟩ ("." ++ e)))

/-- The C8 clause list with only the system-names clause amended. -/
def claimSuspiciousAmended (m : FileMeta) : Bool :=
  let fn := strLower m.name
  (pat_script fn || pat_double fn || pat_hexname fn || pat_space fn || amendedSysClause fn)
  || (smallExeExts.contains (strLower (pySuffix m.name)) && m.size < 1024)
  || (strStarts fn "." && hiddenExeExts.contains (strLower (pySuffix m.name)))

/-- C8 amended: isSuspicious returns true exactly when one of the claimed
heuristics holds, with the system-names clause read as anchored at the start
of the name and with system32 and windows alone sufficing. -/
theorem detect_suspicious_file_amended (m : FileMeta) :
    detect_suspicious_file m = claimSuspiciousAmended m := rfl

/-! Claim C3: category folders before moves, and the date-mode year gap. -/

/-- A file last modified at epoch second 0, seen from epoch second 10^8, so
well over 365 days old, with strftime year 2019. -/
def oldFile : FileMeta := ⟨"old.txt", 10, 0, 2019, 1, true⟩

/-- A target directory holding only that file. -/
def oldDir : DirState := ⟨{["old.txt"]}, ∅, none⟩

/-- C3 failing input: in date mode the classifier sends a file older than 365
days to its four-digit-year bucket, but create_folders only makes the fixed
date folders (including the never-used Older), so the year folder is missing
and the move fails with an error instead of the folder being created: the
organize pass on a directory holding one such file reports one error, moves
nothing, and leaves the file in place. -/
theorem date_mode_year_folder_missing :
    get_file_category default_categories 100000000 oldFile OrgMode.date = "2019" ∧
    "2019" ∉ create_folders default_categories OrgMode.date ∧
    (organize_files default_categories 100000000 false "name" "asc" OrgMode.date false
        [oldFile] oldDir).stats.errors = 1 ∧
    (organize_files default_categories 100000000 false "name" "asc" OrgMode.date false
        [oldFile] oldDir).stats.moved = 0 ∧
    (organize_files default_categories 100000000 false "name" "asc" OrgMode.date false
        [oldFile] oldDir).state.files = oldDir.files := by decide

/-! Claim C4: the reported reclaimable bytes. -/

/-- First of two identical 5-byte files. -/
def dupX : FileMeta := ⟨"x.txt", 5, 0, 2024, 7, true⟩

/-- Second of two identical 5-byte files. -/
def dupY : FileMeta := ⟨"y.txt", 5, 0, 2024, 7, true⟩

/-- A target directory holding exactly those two files. -/
def dupDir : DirState := ⟨{["x.txt"], ["y.txt"]}, ∅, none⟩

/-- C4 failing input: two identical 5-byte files with duplicate detection on.
The sum of the duplicate sizes is 5, but organize_files reports space_saved
10: find_duplicates already adds each duplicate size to the counter and the
organize loop adds the same sizes a second time, so the reported reclaimable
bytes are twice the sum the claim (and Scenario B) states. -/
theorem space_saved_double_counted :
    find_duplicates [dupX, dupY] = [dupY] ∧
    (find_duplicates [dupX, dupY]).foldl (fun a m => a + m.size) 0 = 5 ∧
    (organize_files default_categories 1000 false "name" "asc" OrgMode.type true
        [dupX, dupY] dupDir).stats.duplicates = 1 ∧
    (organize_files default_categories 1000 false "name" "asc" OrgMode.type true
        [dupX, dupY] dupDir).stats.space_saved = 10 := by decide

/-! Claim C7: the dry-run frame. -/

theorem processFile_dry (table : CatTable) (now : Nat) (mode : OrgMode)
    (dupNames : List String) (z : LoopState) (m : FileMeta) :
    (processFile table now mode true dupNames z m).files = z.files ∧
    (processFile table now mode true dupNames z m).folders = z.folders ∧
    (processFile table now mode true dupNames z m).log = z.log := by
  unfold processFile
  simp

theorem foldl_dry_files (table : CatTable) (now : Nat) (mode : OrgMode)
    (dupNames : List String) :
    ∀ (ms : List FileMeta) (z : LoopState),
      (ms.foldl (processFile table now mode true dupNames) z).files = z.files := by
  intro ms
  induction ms with
  | nil => intro z; rfl
  | cons m tl ih =>
    intro z
    rw [List.foldl_cons, ih]
    exact (processFile_dry table now mode dupNames z m).1

theorem foldl_dry_folders (table : CatTable) (now : Nat) (mode : OrgMode)
    (dupNames : List String) :
    ∀ (ms : List FileMeta) (z : LoopState),
      (ms.foldl (processFile table now mode true dupNames) z).folders = z.folders := by
  intro ms
  induction ms with
  | nil => intro z; rfl
  | cons m tl ih =>
    intro z
    rw [List.foldl_cons, ih]
    exact (processFile_dry table now mode dupNames z m).2.1

theorem foldl_dry_log (table : CatTable) (now : Nat) (mode : OrgMode)
    (dupNames : List String) :
    ∀ (ms : List FileMeta) (z : LoopState),
      (ms.foldl (processFile table now mode true dupNames) z).log = z.log := by
  intro ms
  induction ms with
  | nil => intro z; rfl
  | cons m tl ih =>
    intro z
    rw [List.foldl_cons, ih]
    exact (processFile_dry table now mode dupNames z m).2.2

theorem organize_files_dry_state (table : CatTable) (now : Nat)
    (sort_by sort_order : String) (mode : OrgMode) (findDups : Bool)
    (scan : List FileMeta) (s : DirState) :
    (organize_files table now true sort_by sort_order mode findDups scan s).state = s := by
  cases s with
  | mk F D L =>
    unfold organize_files
    by_cases hemp : (scan.filter (fun m => !(strStarts m.name "."))).isEmpty = true
    · simp only [hemp, if_true]
    · simp only [hemp, if_false]
      simp [foldl_dry_files, foldl_dry_folders, foldl_dry_log, orgFolders1]

/-- C7: running organize in dry-run mode, any number of times, leaves the
target directory state — files, category folders and undo-log sidecar —
exactly as it was: the iterated dry-run state map is the identity. -/
theorem dry_run_never_mutates (table : CatTable) (now : Nat)
    (sort_by sort_order : String) (mode : OrgMode) (findDups : Bool)
    (scan : List FileMeta) (s : DirState) (n : Nat) :
    (fun st => (organize_files table now true sort_by sort_order mode findDups scan st).state)^[n] s
      = s := by
  induction n with
  | zero => rfl
  | succ k ih =>
    rw [Function.iterate_succ_apply]
    rw [organize_files_dry_state]
    exact ih

/-! Claim C6: undo skip semantics and log clearing. -/

theorem undoStep_errors (acc : UndoAcc) (e : MoveRec) :
    (undoStep false acc e).errors = acc.errors := by
  unfold undoStep
  split
  · rfl
  · split
    · rfl
    · split <;> rfl

theorem undo_fold_errors :
    ∀ (log : List MoveRec) (acc : UndoAcc),
      (log.foldl (undoStep false) acc).errors = acc.errors := by
  intro log
  induction log with
  | nil => intro acc; rfl
  | cons e tl ih =>
    intro acc
    rw [List.foldl_cons, ih, undoStep_errors]

/-- C6: in a real undo pass over a present, non-empty log, an entry whose new
path is gone is skipped with a warning and an entry whose original path is
occupied is skipped with a warning (each counted as a skip, never as an
error, the accumulator otherwise untouched so the batch continues in log
order); the error counter stays zero, and the sidecar log is deleted exactly
when at least one entry was restored. -/
theorem undo_skip_and_clear (s : DirState) (log : List MoveRec)
    (h : s.undoLog = some log) (hne : log ≠ []) :
    ((undo_organization false s).state.undoLog = none ↔
      (undo_organization false s).restored ≠ 0) ∧
    (undo_organization false s).errors = 0 ∧
    (∀ (acc : UndoAcc) (e : MoveRec), e.new_path ∉ acc.files →
      undoStep false acc e = { acc with skippedMissing := acc.skippedMissing + 1 }) ∧
    (∀ (acc : UndoAcc) (e : MoveRec), e.new_path ∈ acc.files → e.original_path ∈ acc.files →
      undoStep false acc e = { acc with skippedOccupied := acc.skippedOccupied + 1 }) := by
  have hstep1 : ∀ (acc : UndoAcc) (e : MoveRec), e.new_path ∉ acc.files →
      undoStep false acc e = { acc with skippedMissing := acc.skippedMissing + 1 } := by
    intro acc e hmem
    unfold undoStep
    rw [if_neg (by simp), if_pos hmem]
  have hstep2 : ∀ (acc : UndoAcc) (e : MoveRec), e.new_path ∈ acc.files →
      e.original_path ∈ acc.files →
      undoStep false acc e = { acc with skippedOccupied := acc.skippedOccupied + 1 } := by
    intro acc e hmem horig
    unfold undoStep
    rw [if_neg (by simp), if_neg (by simpa using hmem), if_pos horig]
  refine ⟨?_, ?_, hstep1, hstep2⟩
  · unfold undo_organization
    rw [h]
    dsimp only
    rw [if_neg (by simpa using hne)]
    by_cases hr : (log.foldl (undoStep false) ⟨s.files, 0, 0, 0, 0⟩).restored = 0
    · have hcond : (!false && (log.foldl (undoStep false) ⟨s.files, 0, 0, 0, 0⟩).restored != 0) = false := by
        simp [hr]
      rw [hcond]
      simp [h]
      exact hr
    · have hcond : (!false && (log.foldl (undoStep false) ⟨s.files, 0, 0, 0, 0⟩).restored != 0) = true := by
        simp [hr]
      rw [hcond]
      simp
      exact hr
  · unfold undo_organization
    rw [h]
    dsimp only
    rw [if_neg (by simpa using hne)]
    exact undo_fold_errors log ⟨s.files, 0, 0, 0, 0⟩

/-- Logged move whose file was later removed from its category folder. -/
def wMiss : MoveRec := ⟨["gone.txt"], ["Documents", "gone.txt"], "gone.txt", "Documents", false, false⟩

/-- Logged move still in place in its category folder. -/
def wBack : MoveRec := ⟨["a.txt"], ["Documents", "a.txt"], "a.txt", "Documents", false, false⟩

/-- Directory state for the undo witness: only the second logged file is still
at its new path. -/
def wUndoDir : DirState := ⟨{["Documents", "a.txt"]}, {"Documents"}, some [wMiss, wBack]⟩

/-- Witness for C6, the Scenario D shape: one logged file was deleted from its
category folder, the other is restored, and the log is cleared. -/
theorem undo_skip_and_clear_witness :
    (wUndoDir.undoLog = some [wMiss, wBack] ∧ [wMiss, wBack] ≠ ([] : List MoveRec) ∧
      (undo_organization false wUndoDir).restored = 1 ∧
      ["a.txt"] ∈ (undo_organization false wUndoDir).state.files) ∧
    (((undo_organization false wUndoDir).state.undoLog = none ↔
        (undo_organization false wUndoDir).restored ≠ 0) ∧
      (undo_organization false wUndoDir).errors = 0 ∧
      (∀ (acc : UndoAcc) (e : MoveRec), e.new_path ∉ acc.files →
        undoStep false acc e = { acc with skippedMissing := acc.skippedMissing + 1 }) ∧
      (∀ (acc : UndoAcc) (e : MoveRec), e.new_path ∈ acc.files → e.original_path ∈ acc.files →
        undoStep false acc e = { acc with skippedOccupied := acc.skippedOccupied + 1 })) :=
  ⟨⟨rfl, by decide, by decide, by decide⟩,
    undo_skip_and_clear wUndoDir [wMiss, wBack] rfl (by decide)⟩

/-! Invariant of the real organize loop, carried through the per-file fold.
The parameter P is the set of file paths present before the pass. -/

structure LoopInv (P : Finset FPath) (l : LoopState) : Prop where
  origForm : ∀ e ∈ l.log, e.original_path = [e.filename]
  newLen : ∀ e ∈ l.log, e.new_path.length = 2
  nodupO : (l.log.map (fun e => e.original_path)).Nodup
  nodupN : (l.log.map (fun e => e.new_path)).Nodup
  origOut : ∀ e ∈ l.log, e.original_path ∉ l.files
  newIn : ∀ e ∈ l.log, e.new_path ∈ l.files
  newNotPre : ∀ e ∈ l.log, e.new_path ∉ P
  cover : ∀ p ∈ P, p ∈ l.files ∨ p ∈ l.log.map (fun e => e.original_path)
  movedLen : l.log.length = l.stats.moved

theorem stats1_moved (b : Bool) (st : SessionStats) :
    (if b = true then { st with suspicious := st.suspicious + 1 } else st).moved = st.moved := by
  split <;> rfl

theorem inv_step_success (P : Finset FPath) (l : LoopState) (m : FileMeta)
    (C : String) (F2 : Finset String) (st1 : SessionStats) (susp dup : Bool)
    (hst : st1.moved = l.stats.moved)
    (hnot : rootPath m.name ∉ l.log.map (fun e => e.original_path))
    (hinv : LoopInv P l) :
    LoopInv P ⟨insert (destOf C (resolveName l.files C m.name)) (l.files.erase (rootPath m.name)),
      F2,
      l.log ++ [⟨rootPath m.name, destOf C (resolveName l.files C m.name), m.name, C, susp, dup⟩],
      { st1 with moved := st1.moved + 1 }⟩ ∧
    (∃ Δ, (l.log ++ [(⟨rootPath m.name, destOf C (resolveName l.files C m.name), m.name, C, susp, dup⟩ : MoveRec)]) = l.log ++ Δ ∧
      ∀ e ∈ Δ, e.filename = m.name) ∧
    (∀ p : FPath, p ∈ l.files → p ≠ rootPath m.name →
      p ∈ insert (destOf C (resolveName l.files C m.name)) (l.files.erase (rootPath m.name))) := by
  set N : String := resolveName l.files C m.name with hN
  have hdest : destOf C N ∉ l.files := by
    rw [hN]
    exact resolveName_not_mem l.files C m.name
  refine ⟨?_, ⟨[⟨rootPath m.name, destOf C N, m.name, C, susp, dup⟩], rfl, ?_⟩, ?_⟩
  · constructor
    · intro e he
      rcases List.mem_append.mp he with he | he
      · exact hinv.origForm e he
      · simp at he
        rw [he]
        rfl
    · intro e he
      rcases List.mem_append.mp he with he | he
      · exact hinv.newLen e he
      · simp at he
        rw [he]
        rfl
    · simp only [List.map_append]
      refine List.Nodup.append hinv.nodupO (by simp) ?_
      intro a ha
      simp only [List.map_cons, List.map_nil, List.mem_singleton]
      intro hb
      rw [hb] at ha
      exact hnot ha
    · simp only [List.map_append]
      refine List.Nodup.append hinv.nodupN (by simp) ?_
      intro a ha
      simp only [List.map_cons, List.map_nil, List.mem_singleton]
      intro hb
      rcases List.mem_map.mp ha with ⟨e, he, hee⟩
      have hmem := hinv.newIn e he
      rw [hee, hb] at hmem
      exact hdest hmem
    · intro e he
      rcases List.mem_append.mp he with he | he
      · intro hmem
        rcases Finset.mem_insert.mp hmem with hx | hx
        · have h1 := hinv.origForm e he
          have h2 : e.original_path.length = 1 := by rw [h1]; rfl
          rw [hx] at h2
          simp [destOf] at h2
        · exact hinv.origOut e he (Finset.mem_of_mem_erase hx)
      · simp at he
        rw [he]
        intro hmem
        rcases Finset.mem_insert.mp hmem with hx | hx
        · simp [destOf, rootPath] at hx
        · exact Finset.not_mem_erase _ _ hx
    · intro e he
      rcases List.mem_append.mp he with he | he
      · have h2 := hinv.newLen e he
        apply Finset.mem_insert_of_mem
        rw [Finset.mem_erase]
        refine ⟨?_, hinv.newIn e he⟩
        intro hx
        rw [hx] at h2
        simp [rootPath] at h2
      · simp at he
        rw [he]
        exact Finset.mem_insert_self _ _
    · intro e he
      rcases List.mem_append.mp he with he | he
      · exact hinv.newNotPre e he
      · simp at he
        rw [he]
        intro hmem
        rcases hinv.cover _ hmem with hx | hx
        · exact hdest hx
        · rcases List.mem_map.mp hx with ⟨e2, he2, hee2⟩
          have h1 := hinv.origForm e2 he2
          rw [h1] at hee2
          have h2 : [e2.filename] = destOf C N := hee2
          simp [destOf] at h2
    · intro p hp
      rcases hinv.cover p hp with hx | hx
      · by_cases hps : p = rootPath m.name
        · right
          simp only [List.map_append]
          simp [hps]
        · left
          apply Finset.mem_insert_of_mem
          rw [Finset.mem_erase]
          exact ⟨hps, hx⟩
      · right
        simp only [List.map_append]
        exact List.mem_append.mpr (Or.inl hx)
    · simp only [List.length_append, List.length_singleton]
      rw [hinv.movedLen, hst]
  · intro e he
    simp at he
    rw [he]
  · intro p hp hne
    apply Finset.mem_insert_of_mem
    rw [Finset.mem_erase]
    exact ⟨hne, hp⟩

theorem inv_step_fail (P : Finset FPath) (l : LoopState) (m : FileMeta)
    (F2 : Finset String) (st1 : SessionStats)
    (hst : st1.moved = l.stats.moved)
    (hinv : LoopInv P l) :
    LoopInv P ⟨l.files, F2, l.log, { st1 with errors := st1.errors + 1 }⟩ ∧
    (∃ Δ, l.log = l.log ++ Δ ∧ ∀ e ∈ Δ, e.filename = m.name) ∧
    (∀ p : FPath, p ∈ l.files → p ≠ rootPath m.name → p ∈ l.files) := by
  refine ⟨?_, ⟨[], by simp, by simp⟩, fun p hp _ => hp⟩
  constructor
  · exact hinv.origForm
  · exact hinv.newLen
  · exact hinv.nodupO
  · exact hinv.nodupN
  · exact hinv.origOut
  · exact hinv.newIn
  · exact hinv.newNotPre
  · exact hinv.cover
  · rw [hinv.movedLen, hst]

theorem processFile_real_step (table : CatTable) (now : Nat) (mode : OrgMode)
    (dupNames : List String) (P : Finset FPath) (l : LoopState) (m : FileMeta)
    (hm : rootPath m.name ∈ l.files)
    (hnot : rootPath m.name ∉ l.log.map (fun e => e.original_path))
    (hinv : LoopInv P l) :
    LoopInv P (processFile table now mode false dupNames l m) ∧
    (∃ Δ, (processFile table now mode false dupNames l m).log = l.log ++ Δ ∧
      ∀ e ∈ Δ, e.filename = m.name) ∧
    (∀ p : FPath, p ∈ l.files → p ≠ rootPath m.name →
      p ∈ (processFile table now mode false dupNames l m).files) := by
  unfold processFile
  simp only [Bool.false_eq_true, if_false, Bool.not_false, Bool.and_true]
  split
  all_goals try split
  all_goals try split
  all_goals try split
  all_goals first
    | exact inv_step_success P l m _ _ _ _ _ rfl hnot hinv
    | exact inv_step_fail P l m _ _ rfl hinv

theorem processFold_real (table : CatTable) (now : Nat) (mode : OrgMode)
    (dupNames : List String) (P : Finset FPath) :
    ∀ (ms : List FileMeta) (l : LoopState),
      (ms.map (fun m => m.name)).Nodup →
      (∀ m ∈ ms, rootPath m.name ∈ l.files) →
      (∀ m ∈ ms, rootPath m.name ∉ l.log.map (fun e => e.original_path)) →
      LoopInv P l →
      LoopInv P (ms.foldl (processFile table now mode false dupNames) l) ∧
      (∃ Δ, (ms.foldl (processFile table now mode false dupNames) l).log = l.log ++ Δ ∧
        ∀ e ∈ Δ, ∃ m2, m2 ∈ ms ∧ e.filename = m2.name) := by
  intro ms
  induction ms with
  | nil =>
    intro l _ _ _ hinv
    exact ⟨hinv, ⟨[], by simp, by simp⟩⟩
  | cons m tl ih =>
    intro l hnd hmem hnot hinv
    rw [List.foldl_cons]
    obtain ⟨hinv1, ⟨Δ1, hlog1, hfn1⟩, hkeep⟩ :=
      processFile_real_step table now mode dupNames P l m (hmem m (by simp)) (hnot m (by simp)) hinv
    set l1 := processFile table now mode false dupNames l m with hl1
    rw [List.map_cons, List.nodup_cons] at hnd
    have hmem2 : ∀ m2 ∈ tl, rootPath m2.name ∈ l1.files := by
      intro m2 hm2
      apply hkeep
      · exact hmem m2 (by simp [hm2])
      · intro he
        have hnm : m2.name = m.name := by simpa [rootPath] using he
        have hmm : m2.name ∈ tl.map (fun m => m.name) := List.mem_map_of_mem _ hm2
        rw [hnm] at hmm
        exact hnd.1 hmm
    have hnot2 : ∀ m2 ∈ tl, rootPath m2.name ∉ l1.log.map (fun e => e.original_path) := by
      intro m2 hm2 hmm
      rw [hlog1, List.map_append] at hmm
      rcases List.mem_append.mp hmm with hx | hx
      · exact hnot m2 (by simp [hm2]) hx
      · rcases List.mem_map.mp hx with ⟨e, he, hee⟩
        have hf := hfn1 e he
        have ho := hinv1.origForm e (by rw [hlog1]; exact List.mem_append.mpr (Or.inr he))
        rw [ho, hf] at hee
        have hnm : m.name = m2.name := by simpa [rootPath] using hee
        have hmm2 : m2.name ∈ tl.map (fun m => m.name) := List.mem_map_of_mem _ hm2
        rw [← hnm] at hmm2
        exact hnd.1 hmm2
    obtain ⟨hinvF, ⟨Δ2, hlog2, hfn2⟩⟩ := ih l1 hnd.2 hmem2 hnot2 hinv1
    refine ⟨hinvF, ⟨Δ1 ++ Δ2, ?_, ?_⟩⟩
    · rw [hlog2, hlog1, List.append_assoc]
    · intro e he
      rcases List.mem_append.mp he with hx | hx
      · exact ⟨m, by simp, hfn1 e hx⟩
      · obtain ⟨m2, hm2, hf⟩ := hfn2 e hx
        exact ⟨m2, by simp [hm2], hf⟩

theorem orgStats1_moved (findDups : Bool) (dups : List FileMeta) :
    (orgStats1 findDups dups).moved = 0 := by
  unfold orgStats1
  split <;> rfl

/-- Collected guarantees of one real organize pass, relative to the scan list
and the starting state. -/
structure OrganizeSpec (scan : List FileMeta) (s : DirState) (r : OrganizeResult) : Prop where
  origForm : ∀ e ∈ r.log, e.original_path = [e.filename]
  newLen : ∀ e ∈ r.log, e.new_path.length = 2
  nodupO : (r.log.map (fun e => e.original_path)).Nodup
  nodupN : (r.log.map (fun e => e.new_path)).Nodup
  origOut : ∀ e ∈ r.log, e.original_path ∉ r.state.files
  newIn : ∀ e ∈ r.log, e.new_path ∈ r.state.files
  newNotPre : ∀ e ∈ r.log, e.new_path ∉ s.files
  movedLen : r.log.length = r.stats.moved
  fromScan : ∀ e ∈ r.log, ∃ m2,
    m2 ∈ scan.filter (fun m => !(strStarts m.name ".")) ∧ e.filename = m2.name
  logSaved : r.stats.moved ≠ 0 → r.state.undoLog = some r.log
  logKept : r.stats.moved = 0 → r.state.undoLog = s.undoLog

theorem organize_files_real_spec (table : CatTable) (now : Nat)
    (sort_by sort_order : String) (mode : OrgMode) (findDups : Bool)
    (scan : List FileMeta) (s : DirState)
    (h1 : (scan.map (fun m => m.name)).Nodup)
    (h2 : ∀ m ∈ scan, rootPath m.name ∈ s.files) :
    OrganizeSpec scan s (organize_files table now false sort_by sort_order mode findDups scan s) := by
  unfold organize_files
  by_cases hemp : (scan.filter (fun m => !(strStarts m.name "."))).isEmpty = true
  · simp only [hemp, if_true]
    refine ⟨?_, ?_, ?_, ?_, ?_, ?_, ?_, ?_, ?_, ?_, ?_⟩ <;> simp [initStats]
  · simp only [hemp, if_false]
    set fl := scan.filter (fun m => !(strStarts m.name ".")) with hfl
    set dups := if findDups then find_duplicates fl else [] with hdups
    set sorted := sort_files sort_by sort_order fl with hsorted
    set z0 : LoopState :=
      ⟨s.files, orgFolders1 table mode false dups s.folders, [], orgStats1 findDups dups⟩ with hz0
    have hpermN := (sort_files_perm sort_by sort_order fl).map (fun m => m.name)
    have hnd : (sorted.map (fun m => m.name)).Nodup := by
      rw [hpermN.nodup_iff]
      exact List.Nodup.sublist (List.Sublist.map (fun m => m.name) (List.filter_sublist scan)) h1
    have hmemS : ∀ m ∈ sorted, rootPath m.name ∈ z0.files := by
      intro m hm
      have hm2 : m ∈ fl := (sort_files_perm sort_by sort_order fl).mem_iff.mp hm
      exact h2 m (List.mem_of_mem_filter hm2)
    have hnot0 : ∀ m ∈ sorted, rootPath m.name ∉ z0.log.map (fun e => e.original_path) := by
      intro m _ hmm
      simp at hmm
    have hinv0 : LoopInv s.files z0 := by
      refine ⟨?_, ?_, ?_, ?_, ?_, ?_, ?_, ?_, ?_⟩
      · intro e he; simp at he
      · intro e he; simp at he
      · simp
      · simp
      · intro e he; simp at he
      · intro e he; simp at he
      · intro e he; simp at he
      · intro p hp; exact Or.inl hp
      · exact (orgStats1_moved findDups dups).symm
    obtain ⟨hinvF, ⟨Δ, hlog, hfn⟩⟩ := processFold_real table now mode
      (dups.map (fun m => m.name)) s.files sorted z0 hnd hmemS hnot0 hinv0
    refine ⟨hinvF.origForm, hinvF.newLen, hinvF.nodupO, hinvF.nodupN,
      hinvF.origOut, hinvF.newIn, hinvF.newNotPre, hinvF.movedLen, ?_, ?_, ?_⟩
    · intro e he
      rw [hlog, List.nil_append] at he
      obtain ⟨m2, hm2, hf⟩ := hfn e he
      exact ⟨m2, (sort_files_perm sort_by sort_order fl).mem_iff.mp hm2, hf⟩
    · intro hmv
      have hc : (!false &&
          (sorted.foldl (processFile table now mode false (dups.map (fun m => m.name))) z0).stats.moved != 0)
            = true := by
        simpa using hmv
      rw [hc]
      simp
    · intro hmv
      have hc : (!false &&
          (sorted.foldl (processFile table now mode false (dups.map (fun m => m.name))) z0).stats.moved != 0)
            = false := by
        simpa using hmv
      rw [hc]
      simp

/-- C2: in every real organize pass over a well-formed scan, the executed
destination paths are pairwise distinct and none of them is a path that
already held a file before the pass (so no pre-existing file is overwritten);
and the suffix mechanics are as claimed: with Documents slash report.txt
already present, a planned report.txt resolves to Documents slash
report_1.txt. -/
theorem organize_destinations_unique (table : CatTable) (now : Nat)
    (sort_by sort_order : String) (mode : OrgMode) (findDups : Bool)
    (scan : List FileMeta) (s : DirState)
    (h1 : (scan.map (fun m => m.name)).Nodup)
    (h2 : ∀ m ∈ scan, rootPath m.name ∈ s.files) :
    ((organize_files table now false sort_by sort_order mode findDups scan s).log.map
      (fun e => e.new_path)).Nodup ∧
    (∀ e ∈ (organize_files table now false sort_by sort_order mode findDups scan s).log,
      e.new_path ∉ s.files) ∧
    (organize_files default_categories 0 false "name" "asc" OrgMode.type false
        [⟨"report.txt", 10, 0, 2024, 1, true⟩]
        ⟨{["Documents", "report.txt"], ["report.txt"]}, ∅, none⟩).log =
      [⟨["report.txt"], ["Documents", "report_1.txt"], "report.txt", "Documents", false, false⟩] := by
  have hs := organize_files_real_spec table now sort_by sort_order mode findDups scan s h1 h2
  exact ⟨hs.nodupN, hs.newNotPre, by decide⟩

/-- Witness for C2 on a one-file directory. -/
theorem organize_destinations_unique_witness :
    ((([⟨"a.txt", 1, 0, 2024, 1, true⟩] : List FileMeta).map (fun m => m.name)).Nodup ∧
      (∀ m ∈ ([⟨"a.txt", 1, 0, 2024, 1, true⟩] : List FileMeta),
        rootPath m.name ∈ (⟨{["a.txt"]}, ∅, none⟩ : DirState).files)) ∧
    (((organize_files default_categories 5 false "name" "asc" OrgMode.type true
        [⟨"a.txt", 1, 0, 2024, 1, true⟩] ⟨{["a.txt"]}, ∅, none⟩).log.map
      (fun e => e.new_path)).Nodup ∧
    (∀ e ∈ (organize_files default_categories 5 false "name" "asc" OrgMode.type true
        [⟨"a.txt", 1, 0, 2024, 1, true⟩] ⟨{["a.txt"]}, ∅, none⟩).log,
      e.new_path ∉ (⟨{["a.txt"]}, ∅, none⟩ : DirState).files) ∧
    (organize_files default_categories 0 false "name" "asc" OrgMode.type false
        [⟨"report.txt", 10, 0, 2024, 1, true⟩]
        ⟨{["Documents", "report.txt"], ["report.txt"]}, ∅, none⟩).log =
      [⟨["report.txt"], ["Documents", "report_1.txt"], "report.txt", "Documents", false, false⟩]) :=
  ⟨⟨by decide, by decide⟩,
    organize_destinations_unique default_categories 5 "name" "asc" OrgMode.type true
      [⟨"a.txt", 1, 0, 2024, 1, true⟩] ⟨{["a.txt"]}, ∅, none⟩ (by decide) (by decide)⟩

/-- C5: at the end of a real organize pass that moved at least one file, the
persisted undo log is exactly the move list of this pass: it is written as
some r.log, its length is the moved counter, every entry originates from a
root file of this pass, and the whole result — including the persisted log —
is the same whatever undo log was pending before the pass, so no entry of an
earlier pass survives and at most one pending undo session exists. -/
theorem undo_log_single_session (table : CatTable) (now : Nat)
    (sort_by sort_order : String) (mode : OrgMode) (findDups : Bool)
    (scan : List FileMeta) (s : DirState)
    (h1 : (scan.map (fun m => m.name)).Nodup)
    (h2 : ∀ m ∈ scan, rootPath m.name ∈ s.files)
    (hmv : (organize_files table now false sort_by sort_order mode findDups scan s).stats.moved ≠ 0) :
    (organize_files table now false sort_by sort_order mode findDups scan s).state.undoLog =
      some (organize_files table now false sort_by sort_order mode findDups scan s).log ∧
    (organize_files table now false sort_by sort_order mode findDups scan s).log.length =
      (organize_files table now false sort_by sort_order mode findDups scan s).stats.moved ∧
    (∀ e ∈ (organize_files table now false sort_by sort_order mode findDups scan s).log,
      e.original_path ∈ s.files) ∧
    (∀ L : Option (List MoveRec),
      organize_files table now false sort_by sort_order mode findDups scan ⟨s.files, s.folders, L⟩ =
        organize_files table now false sort_by sort_order mode findDups scan s) := by
  have hs := organize_files_real_spec table now sort_by sort_order mode findDups scan s h1 h2
  refine ⟨hs.logSaved hmv, hs.movedLen.symm ▸ rfl, ?_, ?_⟩
  · intro e he
    obtain ⟨m2, hm2, hf⟩ := hs.fromScan e he
    rw [hs.origForm e he, hf]
    exact h2 m2 (List.mem_of_mem_filter hm2)
  · intro L
    have hemp : (scan.filter (fun m => !(strStarts m.name "."))).isEmpty ≠ true := by
      intro hx
      apply hmv
      unfold organize_files
      simp only [hx, if_true]
      rfl
    unfold organize_files at hmv ⊢
    simp only [if_neg hemp] at hmv ⊢
    have hc : (!false &&
        ((sort_files sort_by sort_order (scan.filter (fun m => !(strStarts m.name ".")))).foldl
          (processFile table now mode false
            ((if findDups then find_duplicates (scan.filter (fun m => !(strStarts m.name "."))) else []).map
              (fun m => m.name)))
          ⟨s.files, orgFolders1 table mode false
              (if findDups then find_duplicates (scan.filter (fun m => !(strStarts m.name "."))) else [])
              s.folders,
            [], orgStats1 findDups
              (if findDups then find_duplicates (scan.filter (fun m => !(strStarts m.name "."))) else [])⟩).stats.moved
          != 0) = true := by
      simpa using hmv
    rw [hc]
    rfl

theorem processFile_log_sub (table : CatTable) (now : Nat) (mode : OrgMode)
    (dryRun : Bool) (dupNames : List String) (z : LoopState) (m : FileMeta) :
    ∀ e ∈ (processFile table now mode dryRun dupNames z m).log,
      e ∈ z.log ∨ e.filename = m.name := by
  unfold processFile
  dsimp only
  split
  all_goals try split
  all_goals try split
  all_goals try split
  all_goals try split
  all_goals intro e he
  all_goals first
    | exact Or.inl he
    | (rcases List.mem_append.mp he with hx | hx
       · exact Or.inl hx
       · simp at hx
         rw [hx]
         exact Or.inr rfl)

theorem dotfile_fold_filter (table : CatTable) (now : Nat) (mode : OrgMode)
    (dryRun : Bool) (dupNames : List String) :
    ∀ (ms : List FileMeta) (z : LoopState),
      (∀ m ∈ ms, strStarts m.name "." = false) →
      (∀ e ∈ z.log, strStarts e.filename "." = false) →
      ∀ e ∈ (ms.foldl (processFile table now mode dryRun dupNames) z).log,
        strStarts e.filename "." = false := by
  intro ms
  induction ms with
  | nil => intro z _ hz e he; exact hz e he
  | cons m tl ih =>
    intro z hms hz e he
    rw [List.foldl_cons] at he
    refine ih _ (fun m2 hm2 => hms m2 (by simp [hm2])) ?_ e he
    intro e2 he2
    rcases processFile_log_sub table now mode dryRun dupNames z m e2 he2 with hx | hx
    · exact hz e2 hx
    · rw [hx]
      exact hms m (by simp)

/-- C10: the undo-log sidecar name starts with a dot, and no entry that any
organize pass (dry or real) ever logs — hence no file it classifies or moves —
has a dot-leading filename, so the sidecar written by a previous pass is never
organized, moved or renamed by a later pass on the same directory. -/
theorem undo_log_file_never_organized :
    strStarts undoFileName "." = true ∧
    ∀ (table : CatTable) (now : Nat) (dryRun : Bool) (sort_by sort_order : String)
      (mode : OrgMode) (findDups : Bool) (scan : List FileMeta) (s : DirState),
      ∀ e ∈ (organize_files table now dryRun sort_by sort_order mode findDups scan s).log,
        strStarts e.filename "." = false ∧ e.filename ≠ undoFileName := by
  constructor
  · decide
  · intro table now dryRun sort_by sort_order mode findDups scan s e he
    unfold organize_files at he
    by_cases hemp : (scan.filter (fun m => !(strStarts m.name "."))).isEmpty = true
    · simp only [hemp, if_true] at he
      simp at he
    · simp only [hemp, if_false] at he
      have hmain : strStarts e.filename "." = false := by
        refine dotfile_fold_filter table now mode dryRun _ _ _ ?_ ?_ e he
        · intro m hm
          have hm2 : m ∈ scan.filter (fun m => !(strStarts m.name ".")) :=
            (sort_files_perm sort_by sort_order _).mem_iff.mp hm
          have := List.of_mem_filter hm2
          simpa using this
        · intro e2 he2
          simp at he2
      refine ⟨hmain, ?_⟩
      intro hf
      rw [hf] at hmain
      have : strStarts undoFileName "." = true := by decide
      rw [this] at hmain
      exact Bool.true_eq_false ▸ hmain

theorem undoStep_real_cases (acc : UndoAcc) (e : MoveRec) :
    (undoStep false acc e).files = acc.files ∨
    (e.new_path ∈ acc.files ∧ e.original_path ∉ acc.files ∧
      (undoStep false acc e).files = insert e.original_path (acc.files.erase e.new_path)) := by
  unfold undoStep
  simp only [Bool.false_eq_true, if_false]
  by_cases h1 : e.new_path ∉ acc.files
  · rw [if_pos h1]
    exact Or.inl rfl
  · rw [if_neg h1]
    by_cases h2 : e.original_path ∈ acc.files
    · rw [if_pos h2]
      exact Or.inl rfl
    · rw [if_neg h2]
      exact Or.inr ⟨not_not.mp h1, h2, rfl⟩

theorem undoStep_restore (acc : UndoAcc) (e : MoveRec)
    (h1 : e.new_path ∈ acc.files) (h2 : e.original_path ∉ acc.files) :
    undoStep false acc e =
      { acc with files := insert e.original_path (acc.files.erase e.new_path),
                 restored := acc.restored + 1 } := by
  unfold undoStep
  simp only [Bool.false_eq_true, if_false]
  rw [if_neg (not_not_intro h1), if_neg h2]

theorem undo_keep_len1 :
    ∀ (log : List MoveRec) (acc : UndoAcc) (p : FPath),
      p.length = 1 → p ∈ acc.files → (∀ e ∈ log, e.new_path.length = 2) →
      p ∈ (log.foldl (undoStep false) acc).files := by
  intro log
  induction log with
  | nil => intro acc p _ hp _; exact hp
  | cons e tl ih =>
    intro acc p hp1 hpmem hlen
    rw [List.foldl_cons]
    refine ih _ p hp1 ?_ (fun e2 he2 => hlen e2 (by simp [he2]))
    rcases undoStep_real_cases acc e with hx | ⟨_, _, hx⟩
    · rw [hx]
      exact hpmem
    · rw [hx]
      apply Finset.mem_insert_of_mem
      rw [Finset.mem_erase]
      refine ⟨?_, hpmem⟩
      intro hpe
      have := hlen e (by simp)
      rw [← hpe, hp1] at this
      simp at this

theorem undo_keep_len2_out :
    ∀ (log : List MoveRec) (acc : UndoAcc) (p : FPath),
      p.length = 2 → p ∉ acc.files → (∀ e ∈ log, e.original_path.length = 1) →
      p ∉ (log.foldl (undoStep false) acc).files := by
  intro log
  induction log with
  | nil => intro acc p _ hp _; exact hp
  | cons e tl ih =>
    intro acc p hp2 hpout hlen
    rw [List.foldl_cons]
    refine ih _ p hp2 ?_ (fun e2 he2 => hlen e2 (by simp [he2]))
    rcases undoStep_real_cases acc e with hx | ⟨_, _, hx⟩
    · rw [hx]
      exact hpout
    · rw [hx]
      intro hmem
      rcases Finset.mem_insert.mp hmem with hy | hy
      · have := hlen e (by simp)
        rw [← hy, hp2] at this
        simp at this
      · exact hpout (Finset.mem_of_mem_erase hy)

theorem undo_fold_restores :
    ∀ (log : List MoveRec) (acc : UndoAcc),
      (log.map (fun e => e.original_path)).Nodup →
      (log.map (fun e => e.new_path)).Nodup →
      (∀ e ∈ log, e.original_path.length = 1) →
      (∀ e ∈ log, e.new_path.length = 2) →
      (∀ e ∈ log, e.new_path ∈ acc.files) →
      (∀ e ∈ log, e.original_path ∉ acc.files) →
      (∀ e ∈ log, e.original_path ∈ (log.foldl (undoStep false) acc).files ∧
        e.new_path ∉ (log.foldl (undoStep false) acc).files) ∧
      (log.foldl (undoStep false) acc).restored = acc.restored + log.length := by
  intro log
  induction log with
  | nil =>
    intro acc _ _ _ _ _ _
    exact ⟨by simp, by simp⟩
  | cons e tl ih =>
    intro acc hO hN hlen1 hlen2 hnew horig
    rw [List.map_cons, List.nodup_cons] at hO hN
    rw [List.foldl_cons, undoStep_restore acc e (hnew e (by simp)) (horig e (by simp))]
    set F1 : Finset FPath := insert e.original_path (acc.files.erase e.new_path) with hF1
    set acc1 : UndoAcc := { acc with files := F1, restored := acc.restored + 1 } with hacc1
    have hF1files : acc1.files = F1 := rfl
    have hnew1 : ∀ e2 ∈ tl, e2.new_path ∈ acc1.files := by
      intro e2 he2
      rw [hF1files, hF1]
      apply Finset.mem_insert_of_mem
      rw [Finset.mem_erase]
      refine ⟨?_, hnew e2 (by simp [he2])⟩
      intro hx
      exact hN.1 (hx ▸ List.mem_map_of_mem _ he2)
    have horig1 : ∀ e2 ∈ tl, e2.original_path ∉ acc1.files := by
      intro e2 he2 hmem
      rw [hF1files, hF1] at hmem
      rcases Finset.mem_insert.mp hmem with hy | hy
      · exact hO.1 (hy ▸ List.mem_map_of_mem _ he2)
      · exact horig e2 (by simp [he2]) (Finset.mem_of_mem_erase hy)
    have hlen1t : ∀ e2 ∈ tl, e2.original_path.length = 1 := fun e2 he2 => hlen1 e2 (by simp [he2])
    have hlen2t : ∀ e2 ∈ tl, e2.new_path.length = 2 := fun e2 he2 => hlen2 e2 (by simp [he2])
    obtain ⟨hmemT, hcountT⟩ := ih acc1 hO.2 hN.2 hlen1t hlen2t hnew1 horig1
    constructor
    · intro e2 he2
      rcases List.mem_cons.mp he2 with hx | hx
      · subst hx
        constructor
        · refine undo_keep_len1 tl acc1 e2.original_path (hlen1 e2 (by simp)) ?_ hlen2t
          rw [hF1files, hF1]
          exact Finset.mem_insert_self _ _
        · refine undo_keep_len2_out tl acc1 e2.new_path (hlen2 e2 (by simp)) ?_ hlen1t
          rw [hF1files, hF1]
          intro hmem
          rcases Finset.mem_insert.mp hmem with hy | hy
          · have h2 := hlen2 e2 (by simp)
            have h1 := hlen1 e2 (by simp)
            rw [hy, h1] at h2
            simp at h2
          · exact Finset.not_mem_erase _ _ hy
      · exact hmemT e2 hx
    · rw [hcountT]
      simp [hacc1]
      omega

/-- C1: round trip.  Starting from any directory state, running a real
organize pass and then a real undo pass with no external interference in
between puts every moved file back at its exact original path and leaves no
tracked file behind at its category-folder destination (empty category
folders may remain). -/
theorem organize_undo_round_trip (table : CatTable) (now : Nat)
    (sort_by sort_order : String) (mode : OrgMode) (findDups : Bool)
    (scan : List FileMeta) (s : DirState)
    (h1 : (scan.map (fun m => m.name)).Nodup)
    (h2 : ∀ m ∈ scan, rootPath m.name ∈ s.files) :
    ∀ e ∈ (organize_files table now false sort_by sort_order mode findDups scan s).log,
      e.original_path ∈ (undo_organization false
        (organize_files table now false sort_by sort_order mode findDups scan s).state).state.files ∧
      e.new_path ∉ (undo_organization false
        (organize_files table now false sort_by sort_order mode findDups scan s).state).state.files := by
  have hs := organize_files_real_spec table now sort_by sort_order mode findDups scan s h1 h2
  by_cases hmv : (organize_files table now false sort_by sort_order mode findDups scan s).stats.moved = 0
  · intro e he
    have hlen0 : (organize_files table now false sort_by sort_order mode findDups scan s).log.length = 0 := by
      rw [hs.movedLen, hmv]
    rw [List.length_eq_zero.mp hlen0] at he
    simp at he
  · have hlogsome := hs.logSaved hmv
    have hlogne : (organize_files table now false sort_by sort_order mode findDups scan s).log ≠ [] := by
      intro h0
      apply hmv
      rw [← hs.movedLen, h0]
      rfl
    intro e he
    unfold undo_organization
    rw [hlogsome]
    dsimp only
    rw [if_neg (by simpa using hlogne)]
    dsimp only
    obtain ⟨hres, _⟩ := undo_fold_restores
      (organize_files table now false sort_by sort_order mode findDups scan s).log
      ⟨(organize_files table now false sort_by sort_order mode findDups scan s).state.files, 0, 0, 0, 0⟩
      hs.nodupO hs.nodupN
      (fun e2 he2 => by rw [hs.origForm e2 he2]; rfl)
      hs.newLen
      (fun e2 he2 => hs.newIn e2 he2)
      (fun e2 he2 => hs.origOut e2 he2)
    exact hres e he

/-- Witness for C1: a directory with two plain files, organized by type and
then undone; both logged entries are restored to the root and their category
destinations are vacated. -/
theorem organize_undo_round_trip_witness :
    ((([⟨"a.txt", 1, 0, 2024, 1, true⟩, ⟨"b.jpg", 2, 0, 2024, 2, true⟩] : List FileMeta).map
        (fun m => m.name)).Nodup ∧
      (∀ m ∈ ([⟨"a.txt", 1, 0, 2024, 1, true⟩, ⟨"b.jpg", 2, 0, 2024, 2, true⟩] : List FileMeta),
        rootPath m.name ∈ (⟨{["a.txt"], ["b.jpg"]}, ∅, none⟩ : DirState).files)) ∧
    (∀ e ∈ (organize_files default_categories 5 false "name" "asc" OrgMode.type true
        [⟨"a.txt", 1, 0, 2024, 1, true⟩, ⟨"b.jpg", 2, 0, 2024, 2, true⟩]
        ⟨{["a.txt"], ["b.jpg"]}, ∅, none⟩).log,
      e.original_path ∈ (undo_organization false
        (organize_files default_categories 5 false "name" "asc" OrgMode.type true
          [⟨"a.txt", 1, 0, 2024, 1, true⟩, ⟨"b.jpg", 2, 0, 2024, 2, true⟩]
          ⟨{["a.txt"], ["b.jpg"]}, ∅, none⟩).state).state.files ∧
      e.new_path ∉ (undo_organization false
        (organize_files default_categories 5 false "name" "asc" OrgMode.type true
          [⟨"a.txt", 1, 0, 2024, 1, true⟩, ⟨"b.jpg", 2, 0, 2024, 2, true⟩]
          ⟨{["a.txt"], ["b.jpg"]}, ∅, none⟩).state).state.files) :=
  ⟨⟨by decide, by decide⟩,
    organize_undo_round_trip default_categories 5 "name" "asc" OrgMode.type true
      [⟨"a.txt", 1, 0, 2024, 1, true⟩, ⟨"b.jpg", 2, 0, 2024, 2, true⟩]
      ⟨{["a.txt"], ["b.jpg"]}, ∅, none⟩ (by decide) (by decide)⟩

/-- Witness for C5 on a one-file directory with a stale pending log. -/
theorem undo_log_single_session_witness :
    ((([⟨"a.txt", 1, 0, 2024, 1, true⟩] : List FileMeta).map (fun m => m.name)).Nodup ∧
      (∀ m ∈ ([⟨"a.txt", 1, 0, 2024, 1, true⟩] : List FileMeta),
        rootPath m.name ∈ (⟨{["a.txt"]}, ∅, none⟩ : DirState).files) ∧
      (organize_files default_categories 5 false "name" "asc" OrgMode.type false
        [⟨"a.txt", 1, 0, 2024, 1, true⟩] ⟨{["a.txt"]}, ∅, none⟩).stats.moved ≠ 0) ∧
    ((organize_files default_categories 5 false "name" "asc" OrgMode.type false
        [⟨"a.txt", 1, 0, 2024, 1, true⟩] ⟨{["a.txt"]}, ∅, none⟩).state.undoLog =
      some (organize_files default_categories 5 false "name" "asc" OrgMode.type false
        [⟨"a.txt", 1, 0, 2024, 1, true⟩] ⟨{["a.txt"]}, ∅, none⟩).log ∧
    (organize_files default_categories 5 false "name" "asc" OrgMode.type false
        [⟨"a.txt", 1, 0, 2024, 1, true⟩] ⟨{["a.txt"]}, ∅, none⟩).log.length =
      (organize_files default_categories 5 false "name" "asc" OrgMode.type false
        [⟨"a.txt", 1, 0, 2024, 1, true⟩] ⟨{["a.txt"]}, ∅, none⟩).stats.moved ∧
    (∀ e ∈ (organize_files default_categories 5 false "name" "asc" OrgMode.type false
        [⟨"a.txt", 1, 0, 2024, 1, true⟩] ⟨{["a.txt"]}, ∅, none⟩).log,
      e.original_path ∈ (⟨{["a.txt"]}, ∅, none⟩ : DirState).files) ∧
    (∀ L : Option (List MoveRec),
      organize_files default_categories 5 false "name" "asc" OrgMode.type false
        [⟨"a.txt", 1, 0, 2024, 1, true⟩]
        ⟨(⟨{["a.txt"]}, ∅, none⟩ : DirState).files, (⟨{["a.txt"]}, ∅, none⟩ : DirState).folders, L⟩ =
      organize_files default_categories 5 false "name" "asc" OrgMode.type false
        [⟨"a.txt", 1, 0, 2024, 1, true⟩] ⟨{["a.txt"]}, ∅, none⟩)) :=
  ⟨⟨by decide, by decide, by decide⟩,
    undo_log_single_session default_categories 5 "name" "asc" OrgMode.type false
      [⟨"a.txt", 1, 0, 2024, 1, true⟩] ⟨{["a.txt"]}, ∅, none⟩ (by decide) (by decide) (by decide)⟩

/-- Witness for C10: a scan containing the sidecar name and a plain file; the
plain file is logged and its filename is not the sidecar name. -/
theorem undo_log_file_never_organized_witness :
    (⟨["b.txt"], ["Documents", "b.txt"], "b.txt", "Documents", false, false⟩ : MoveRec) ∈
      (organize_files default_categories 5 false "name" "asc" OrgMode.type false
        [⟨".file_organizer_undo.json", 9, 0, 2024, 3, true⟩, ⟨"b.txt", 1, 0, 2024, 1, true⟩]
        ⟨{[".file_organizer_undo.json"], ["b.txt"]}, ∅, none⟩).log ∧
    strStarts (⟨["b.txt"], ["Documents", "b.txt"], "b.txt", "Documents", false, false⟩ : MoveRec).filename "."
      = false ∧
    (⟨["b.txt"], ["Documents", "b.txt"], "b.txt", "Documents", false, false⟩ : MoveRec).filename
      ≠ undoFileName :=
  ⟨by decide,
    undo_log_file_never_organized.2 default_categories 5 false "name" "asc" OrgMode.type false
      [⟨".file_organizer_undo.json", 9, 0, 2024, 3, true⟩, ⟨"b.txt", 1, 0, 2024, 1, true⟩]
      ⟨{[".file_organizer_undo.json"], ["b.txt"]}, ∅, none⟩
      ⟨["b.txt"], ["Documents", "b.txt"], "b.txt", "Documents", false, false⟩ (by decide)⟩

end FileOrganizer
